import Mathlib

/-!
Verification of `scripts/fetch_news.py` ("ao daily news" collector).

The script is a single-pass ETL pipeline: fetch RSS entries, date-filter,
deduplicate, scrape article text, summarize via an external generative API
(with a canned fallback), and persist a "latest" JSON file plus a dated
archive with an index.

Shallow embedding conventions:
* Python strings are Lean `String`s; slicing `s[:n]` is code-point based on
  both sides (`strTake`), `len` is `String.length` (code points), `str.lower`
  is `Char.toLower` per character.
* External collaborators (the RSS feed parse, `html.unescape`, the two
  datetime parsing library functions, `requests`, `json.loads`,
  `random.choice`) are passed in as explicit function/oracle parameters;
  everything written in the repository itself is translated concretely.
* A Python `datetime` value is modelled by `PyDatetime`: its own wall-clock
  reading as minutes since an epoch, plus an optional fixed UTC offset in
  minutes (`None` tzinfo ↦ `none`).
-/

/-- Python `s[:n]` on code points. -/
def strTake (s : String) (n : Nat) : String := ⟨s.data.take n⟩

/-- Python `s.lower()` (modelled per-character; the keywords and tags the
script compares against are ASCII). -/
def strLower (s : String) : String := ⟨s.data.map Char.toLower⟩

/-- Python `needle in hay` for strings: contiguous substring test. -/
def listContains (needle : List Char) : List Char → Bool
  | [] => needle.isEmpty
  | c :: t => needle.isPrefixOf (c :: t) || listContains needle t

/-- Whitespace class used by the script's `\s` regexes and `.strip()`
(the ASCII whitespace characters). -/
def isWsChar (c : Char) : Bool :=
  c == ' ' || c == '\t' || c == '\n' || c == '\r' || c == '\x0b' || c == '\x0c'

/-! ## Datetime model (`parse_published_date`, `parse_published_datetime`,
`is_published_on_date`, lines 91-135) -/

/-- A parsed Python `datetime`: its own wall-clock reading in minutes since
the epoch, together with its fixed UTC offset in minutes (`none` = naive). -/
structure PyDatetime where
  wallMin : Int
  tzOffset : Option Int
deriving DecidableEq

/-- Civil-from-days conversion (proleptic Gregorian): day number since
1970-01-01 to (year, month, day). -/
def civilFromDays (z0 : Int) : Int × Nat × Nat :=
  let z := z0 + 719468
  let era := z.fdiv 146097
  let doe := (z - era * 146097).toNat
  let yoe := (doe - doe / 1460 + doe / 36524 - doe / 146097) / 365
  let y := (yoe : Int) + era * 400
  let doy := doe - (365 * yoe + yoe / 4 - yoe / 100)
  let mp := (5 * doy + 2) / 153
  let d := doy - (153 * mp + 2) / 5 + 1
  let m := if mp < 10 then mp + 3 else mp - 9
  (if m ≤ 2 then y + 1 else y, m, d)

/-- Left-pad a numeral with zeros (the zero-padding of `%m`, `%d`, `%H`, `%M`). -/
def padNat (w : Nat) (n : Nat) : String :=
  let s := Nat.repr n
  ⟨List.replicate (w - s.data.length) '0' ++ s.data⟩

/-- Year rendering for the date formats. -/
def yearStr (y : Int) : String :=
  if y < 0 then "-" ++ Nat.repr y.natAbs else padNat 4 y.toNat

/-- `strftime("%Y-%m-%d")` of a wall-clock reading given in minutes. -/
def dateStringOfMinutes (wall : Int) : String :=
  let c := civilFromDays (wall.fdiv 1440)
  yearStr c.1 ++ "-" ++ padNat 2 c.2.1 ++ "-" ++ padNat 2 c.2.2

/-- `strftime("%Y年%m月%d日 %H:%M")` of a datetime's own wall clock. -/
def jpDateTimeString (dt : PyDatetime) : String :=
  let c := civilFromDays (dt.wallMin.fdiv 1440)
  let tod := (dt.wallMin.emod 1440).toNat
  yearStr c.1 ++ "年" ++ padNat 2 c.2.1 ++ "月" ++ padNat 2 c.2.2 ++ "日 " ++
    padNat 2 (tod / 60) ++ ":" ++ padNat 2 (tod % 60)

/-- `parse_published_date` (lines 91-104).  `p1` models
`email.utils.parsedate_to_datetime`, `p2` models `datetime.fromisoformat`
(both are stdlib collaborators; `none` = the call raised). -/
def parse_published_date (p1 p2 : String → Option PyDatetime) (s : String) : String :=
  if s = "" then ""
  else
    match p1 s with
    | some dt => jpDateTimeString dt
    | none =>
      match p2 (s.replace "Z" "+00:00") with
      | some dt => jpDateTimeString dt
      | none => if s.length > 16 then strTake s 16 else s

/-- `parse_published_datetime` (lines 107-118). -/
def parse_published_datetime (p1 p2 : String → Option PyDatetime) (s : String) :
    Option PyDatetime :=
  if s = "" then none
  else
    match p1 s with
    | some dt => some dt
    | none => p2 (s.replace "Z" "+00:00")

/-- The JST wall clock of a parsed datetime: `dt.astimezone(jst)` for an
aware value shifts the wall clock by `540 - offset` minutes;
`dt.replace(tzinfo=jst)` keeps a naive value's wall clock (lines 127-132). -/
def jstWallMinutes (dt : PyDatetime) : Int :=
  match dt.tzOffset with
  | some o => dt.wallMin - o + 540
  | none => dt.wallMin

/-- The JST calendar date string of a parsed timestamp. -/
def jstDateString (dt : PyDatetime) : String :=
  dateStringOfMinutes (jstWallMinutes dt)

/-- `is_published_on_date` (lines 121-135). -/
def is_published_on_date (p1 p2 : String → Option PyDatetime)
    (published_str target_date : String) : Bool :=
  match parse_published_datetime p1 p2 published_str with
  | none => false
  | some dt => jstDateString dt == target_date

/-! ## `detect_ai_tools` (lines 50-57, 284-293) -/

/-- The `AI_TOOLS` keyword table (insertion order of the Python dict). -/
def AI_TOOLS : List (String × List String) :=
  [("ChatGPT", ["chatgpt", "chat gpt", "openai", "gpt-4", "gpt-5", "gpt4", "gpt5"]),
   ("Claude", ["claude", "anthropic"]),
   ("Gemini", ["gemini", "google ai", "bard"]),
   ("Manus", ["manus"]),
   ("Genspark", ["genspark"])]

/-- The `detected` list accumulated by the loop of `detect_ai_tools`
(lines 287-291): the tools whose keyword list has a member occurring in
the lower-cased text. -/
def detectedTools (text : String) : List String :=
  AI_TOOLS.filterMap fun tk =>
    if tk.2.any (fun kw => listContains kw.data (strLower text).data) then some tk.1
    else none

/-- `detect_ai_tools` (lines 284-293). -/
def detect_ai_tools (text : String) : List String :=
  if detectedTools text = [] then ["Other"] else detectedTools text

/-! ## `update_archive_index` (lines 513-529) -/

/-- `update_archive_index` on the decoded index list: the file's list is read
(missing file ↦ `[]`), the date is prepended **only if absent**, truncated to
100, and written back (lines 517-529). -/
def update_archive_index (date_str : String) (index : List String) : List String :=
  if date_str ∈ index then index else (date_str :: index).take 100

/-! ## Deduplication in `process_news_category` (lines 465-474) -/

/-- A collected feed entry as built by `fetch_rss_entries` and tagged with
its feed name in `process_news_category`. -/
structure Entry where
  title : String
  link : String
  published : String
  publishedDate : String
  summary : String
  sourceName : String
deriving DecidableEq

/-- The deduplication key: `entry["title"].lower()[:50]` (line 469). -/
def titleKey (e : Entry) : List Char :=
  (e.title.data.map Char.toLower).take 50

/-- The dedup loop with its `seen_titles` set (lines 466-472). -/
def dedupGo (seen : List (List Char)) : List Entry → List Entry
  | [] => []
  | e :: r =>
    if titleKey e ∈ seen then dedupGo seen r
    else e :: dedupGo (titleKey e :: seen) r

/-- Title-based duplicate removal of `process_news_category`. -/
def dedupeEntries (l : List Entry) : List Entry := dedupGo [] l

/-! ## `clean_html_text` (lines 211-226)

The five regex substitutions are translated as left-to-right scanners over
the character list, matching Python `re.sub` semantics (non-overlapping
matches found left to right, scanning resuming after each match). -/

/-- Case-insensitive literal-prefix test (the patterns are given lowercase);
models matching under `re.IGNORECASE`. -/
def ciStarts (pat l : List Char) : Bool :=
  (l.take pat.length).map Char.toLower == pat

/-- Scan for the leftmost case-insensitive occurrence of `pat` and return
the remainder after it; models the lazy `.*?pat` search. -/
def findCiClose (pat : List Char) : List Char → Option (List Char)
  | [] => none
  | c :: r => if ciStarts pat (c :: r) then some ((c :: r).drop pat.length)
              else findCiClose pat r

/-- Attempted match of `<script[^>]*>.*?</script>` (DOTALL, IGNORECASE) at
the start of `l`; returns the remainder after the match. -/
def matchScriptAt (l : List Char) : Option (List Char) :=
  if ciStarts "<script".data l then
    match (l.drop 7).dropWhile (fun c => !(c == '>')) with
    | '>' :: r3 => findCiClose "</script>".data r3
    | _ => none
  else none

/-- Attempted match of `<style[^>]*>.*?</style>` at the start of `l`. -/
def matchStyleAt (l : List Char) : Option (List Char) :=
  if ciStarts "<style".data l then
    match (l.drop 6).dropWhile (fun c => !(c == '>')) with
    | '>' :: r3 => findCiClose "</style>".data r3
    | _ => none
  else none

theorem findCiClose_length {pat l rest : List Char} (hp : 0 < pat.length)
    (h : findCiClose pat l = some rest) : rest.length < l.length := by
  induction l with
  | nil => simp [findCiClose] at h
  | cons c r ih =>
    by_cases hc : ciStarts pat (c :: r) = true
    · simp [findCiClose, hc] at h
      subst h
      simp only [List.length_drop, List.length_cons]
      omega
    · simp [findCiClose, hc] at h
      exact Nat.lt_trans (ih h) (by simp)

theorem matchScriptAt_length {l rest : List Char}
    (h : matchScriptAt l = some rest) : rest.length < l.length := by
  unfold matchScriptAt at h
  by_cases hc : ciStarts "<script".data l = true
  · simp only [hc, if_true] at h
    rcases hm : (l.drop 7).dropWhile (fun c => !(c == '>')) with _ | ⟨c3, r3⟩
    · rw [hm] at h; cases h
    · rw [hm] at h
      rcases hcc : c3 with _
      by_cases h3 : c3 = '>'
      · subst h3
        have hr : rest.length < r3.length := findCiClose_length (by simp) h
        have h1 : r3.length < ((l.drop 7).dropWhile (fun c => !(c == '>'))).length := by
          rw [hm]; simp
        have h2 : ((l.drop 7).dropWhile (fun c => !(c == '>'))).length ≤ (l.drop 7).length :=
          (List.dropWhile_sublist _).length_le
        have h4 : ciStarts "<script".data l = true → 0 < l.length := by
          intro hcs
          cases l with
          | nil => simp [ciStarts] at hcs
          | cons a b => simp
        have h5 := h4 hc
        simp only [List.length_drop] at h2
        omega
      · cases c3 <;> simp_all
  · simp [hc] at h

theorem matchStyleAt_length {l rest : List Char}
    (h : matchStyleAt l = some rest) : rest.length < l.length := by
  unfold matchStyleAt at h
  by_cases hc : ciStarts "<style".data l = true
  · simp only [hc, if_true] at h
    rcases hm : (l.drop 6).dropWhile (fun c => !(c == '>')) with _ | ⟨c3, r3⟩
    · rw [hm] at h; cases h
    · rw [hm] at h
      by_cases h3 : c3 = '>'
      · subst h3
        have hr : rest.length < r3.length := findCiClose_length (by simp) h
        have h1 : r3.length < ((l.drop 6).dropWhile (fun c => !(c == '>'))).length := by
          rw [hm]; simp
        have h2 : ((l.drop 6).dropWhile (fun c => !(c == '>'))).length ≤ (l.drop 6).length :=
          (List.dropWhile_sublist _).length_le
        have h5 : 0 < l.length := by
          cases l with
          | nil => simp [ciStarts] at hc
          | cons a b => simp
        simp only [List.length_drop] at h2
        omega
      · cases c3 <;> simp_all
  · simp [hc] at h

/-- `re.sub(r'<script[^>]*>.*?</script>', '', text)` (line 218). -/
def removeScriptGo : List Char → List Char
  | [] => []
  | c :: r =>
    match h : matchScriptAt (c :: r) with
    | some rest => removeScriptGo rest
    | none => c :: removeScriptGo r
termination_by l => l.length
decreasing_by
  · exact matchScriptAt_length h
  · simp

/-- `re.sub(r'<style[^>]*>.*?</style>', '', text)` (line 219). -/
def removeStyleGo : List Char → List Char
  | [] => []
  | c :: r =>
    match h : matchStyleAt (c :: r) with
    | some rest => removeStyleGo rest
    | none => c :: removeStyleGo r
termination_by l => l.length
decreasing_by
  · exact matchStyleAt_length h
  · simp

/-- Does `<[^>]+>` match at the position right after a `<`?  True iff the
first later `>` exists and is not immediately adjacent. -/
def startsTagB (r : List Char) : Bool :=
  !(r.takeWhile (fun c => !(c == '>'))).isEmpty &&
    !(r.dropWhile (fun c => !(c == '>'))).isEmpty

/-- Remainder after the `<[^>]+>` match: everything past the first `>`. -/
def skipTag (r : List Char) : List Char :=
  (r.dropWhile (fun c => !(c == '>'))).tail

theorem skipTag_length_le (r : List Char) : (skipTag r).length ≤ r.length := by
  unfold skipTag
  exact Nat.le_trans (List.tail_sublist _).length_le (List.dropWhile_sublist _).length_le

/-- `re.sub(r"<[^>]+>", " ", text)` (line 221): each tag match is replaced
by a single space. -/
def removeTags : List Char → List Char
  | [] => []
  | c :: r =>
    if c == '<' then
      if startsTagB r then ' ' :: removeTags (skipTag r)
      else c :: removeTags r
    else c :: removeTags r
termination_by l => l.length
decreasing_by
  all_goals simp_wf
  all_goals first
    | exact Nat.lt_succ_of_le (skipTag_length_le _)
    | (simp only [List.length_cons]; omega)
    | omega

/-- The `\S+` tail of a URL match: fails if no non-space character follows. -/
def urlTail (r2 : List Char) : Option (List Char) :=
  if (r2.takeWhile (fun c => !isWsChar c)).isEmpty then none
  else some (r2.dropWhile (fun c => !isWsChar c))

/-- Attempted match of `https?://\S+` at the start of `l`. -/
def matchUrl : List Char → Option (List Char)
  | 'h' :: 't' :: 't' :: 'p' :: 's' :: ':' :: '/' :: '/' :: r2 => urlTail r2
  | 'h' :: 't' :: 't' :: 'p' :: ':' :: '/' :: '/' :: r2 => urlTail r2
  | _ => none

theorem urlTail_length {r2 rest : List Char} (h : urlTail r2 = some rest) :
    rest.length ≤ r2.length := by
  unfold urlTail at h
  by_cases he : (r2.takeWhile (fun c => !isWsChar c)).isEmpty
  · simp [he] at h
  · simp [he] at h
    subst h
    exact (List.dropWhile_sublist _).length_le

theorem urlTail_sublist {r2 rest : List Char} (h : urlTail r2 = some rest) :
    rest.Sublist r2 := by
  unfold urlTail at h
  by_cases he : (r2.takeWhile (fun c => !isWsChar c)).isEmpty
  · simp [he] at h
  · simp [he] at h
    subst h
    exact List.dropWhile_sublist _

theorem matchUrl_length {l rest : List Char} (h : matchUrl l = some rest) :
    rest.length < l.length := by
  unfold matchUrl at h
  split at h
  · have := urlTail_length h
    simp only [List.length_cons]
    omega
  · have := urlTail_length h
    simp only [List.length_cons]
    omega
  · cases h

theorem matchUrl_sublist {l rest : List Char} (h : matchUrl l = some rest) :
    rest.Sublist l := by
  unfold matchUrl at h
  split at h
  · exact (urlTail_sublist h).trans
      (List.IsSuffix.sublist ⟨['h', 't', 't', 'p', 's', ':', '/', '/'], rfl⟩)
  · exact (urlTail_sublist h).trans
      (List.IsSuffix.sublist ⟨['h', 't', 't', 'p', ':', '/', '/'], rfl⟩)
  · cases h

/-- `re.sub(r'https?://\S+', '', no_tags)` (line 223). -/
def removeUrls : List Char → List Char
  | [] => []
  | c :: r =>
    match h : matchUrl (c :: r) with
    | some rest => removeUrls rest
    | none => c :: removeUrls r
termination_by l => l.length
decreasing_by
  · exact matchUrl_length h
  · simp

/-- `re.sub(r"\s+", " ", no_urls)` (line 225): each whitespace run becomes
a single space. -/
def collapseWs : List Char → List Char
  | [] => []
  | c :: r =>
    if isWsChar c then ' ' :: collapseWs (r.dropWhile isWsChar)
    else c :: collapseWs r
termination_by l => l.length
decreasing_by
  · exact Nat.lt_succ_of_le (List.dropWhile_sublist _).length_le
  · simp

/-- `.strip()` (line 225): drop leading and trailing whitespace. -/
def stripWs (l : List Char) : List Char :=
  ((l.dropWhile isWsChar).reverse.dropWhile isWsChar).reverse

/-- `clean_html_text` (lines 211-226).  `unesc` models `html.unescape`
(stdlib collaborator applied first, line 216). -/
def clean_html_text (unesc : String → String) (text : String) : String :=
  if text = "" then ""
  else ⟨stripWs (collapseWs (removeUrls (removeTags
          (removeStyleGo (removeScriptGo (unesc text).data)))))⟩

/-- No substring of `l` matches the tag pattern `<[^>]+>` (Boolean form:
no position holds a `<` whose first later `>` exists at distance ≥ 2). -/
def noTagB : List Char → Bool
  | [] => true
  | c :: r => (!(c == '<') || !startsTagB r) && noTagB r

/-- No two adjacent characters of `l` are both whitespace. -/
def noWsRunB : List Char → Bool
  | [] => true
  | [_] => true
  | a :: b :: r => !(isWsChar a && isWsChar b) && noWsRunB (b :: r)

/-- Some substring of `l` matches the HTML tag pattern `<[^>]+>`. -/
def hasTagP (l : List Char) : Prop :=
  ∃ pre mid post, l = pre ++ '<' :: (mid ++ '>' :: post) ∧ mid ≠ [] ∧ '>' ∉ mid

/-- Some substring of `l` is a complete (case-insensitive) script element
`<script...>body</script>`. -/
def hasScriptElemP (l : List Char) : Prop :=
  ∃ pre opn attrs body cls post,
    l = pre ++ '<' :: (opn ++ attrs ++ '>' :: (body ++ '<' :: '/' :: (cls ++ '>' :: post))) ∧
    opn.map Char.toLower = "script".data ∧ cls.map Char.toLower = "script".data ∧
    '>' ∉ attrs

/-- Some substring of `l` is a complete (case-insensitive) style element
`<style...>body</style>`. -/
def hasStyleElemP (l : List Char) : Prop :=
  ∃ pre opn attrs body cls post,
    l = pre ++ '<' :: (opn ++ attrs ++ '>' :: (body ++ '<' :: '/' :: (cls ++ '>' :: post))) ∧
    opn.map Char.toLower = "style".data ∧ cls.map Char.toLower = "style".data ∧
    '>' ∉ attrs

/-! ## `extract_entry_summary` and `fetch_rss_entries` (lines 229-281) -/

/-- A raw syndication entry as returned by `feedparser` (the fields the
script reads; `contentValue` is `entry.get("content",[])[0].get("value","")`
with absent pieces collapsed to `""`). -/
structure RawEntry where
  title : String
  link : String
  published : String
  summary : String
  contentValue : String
deriving DecidableEq

/-- `extract_entry_summary` (lines 229-243). -/
def extract_entry_summary (unesc : String → String) (e : RawEntry) : String :=
  let raw_summary := if e.summary = "" then e.contentValue else e.summary
  let cleaned := clean_html_text unesc raw_summary
  if cleaned.length < 20 then "" else cleaned

/-- The per-entry dictionary built by `fetch_rss_entries` (lines 266-273);
`source` is attached later by `process_news_category` (line 461). -/
def mkEntry (unesc : String → String) (p1 p2 : String → Option PyDatetime)
    (e : RawEntry) : Entry :=
  { title := clean_html_text unesc e.title
    link := e.link
    published := e.published
    publishedDate := parse_published_date p1 p2 e.published
    summary := strTake (extract_entry_summary unesc e) 500
    sourceName := "" }

/-- Does the loop body `continue` past this entry?  (lines 262-264; note the
Python truthiness tests: an empty `target_date` or an empty `published`
field disables the filter). -/
def skipsEntry (p1 p2 : String → Option PyDatetime) (target : Option String)
    (e : RawEntry) : Bool :=
  match target with
  | none => false
  | some td =>
    if td = "" then false
    else if e.published = "" then false
    else !is_published_on_date p1 p2 e.published td

/-- The collection loop of `fetch_rss_entries` (lines 258-276): `cnt` is the
running `len(entries)`; after each append the loop breaks once
`len(entries) >= max_entries`. -/
def fetchGo (unesc : String → String) (p1 p2 : String → Option PyDatetime)
    (target : Option String) (maxE : Nat) : List RawEntry → Nat → List Entry
  | [], _ => []
  | e :: r, cnt =>
    if skipsEntry p1 p2 target e then fetchGo unesc p1 p2 target maxE r cnt
    else
      mkEntry unesc p1 p2 e ::
        (if cnt + 1 ≥ maxE then [] else fetchGo unesc p1 p2 target maxE r (cnt + 1))

/-- `fetch_rss_entries` (lines 252-281): the feed's entry list (a network
collaborator) is passed in as `feed`; the slice `feed.entries[:max_entries*3]`
bounds how many raw entries are examined. -/
def fetch_rss_entries (unesc : String → String) (p1 p2 : String → Option PyDatetime)
    (feed : List RawEntry) (maxE : Nat) (target : Option String) : List Entry :=
  fetchGo unesc p1 p2 target maxE (feed.take (maxE * 3)) 0

/-! ## Gemini call and the summary generators (lines 59-88, 296-450) -/

/-- `FALLBACK_COMMENTS["ai"]` (lines 61-69). -/
def fallbackCommentsAi : List String :=
  ["AIの進化は目覚ましいですね。民泊やレンタルスペースの運営にも活用できるヒントがあるかもしれません。",
   "この技術、顧客対応の自動化や予約管理に応用できそうです。最新動向は要チェック！",
   "AI活用で業務効率化のチャンス。競合に差をつけるためにも、新しい技術には敏感でいたいですね。",
   "生成AIの活用シーンが広がっています。物件紹介文の作成や多言語対応などに使えそう。",
   "テクノロジーの進歩を味方につけて、より良いサービス提供を目指しましょう！",
   "このニュースは注目。AIを使った集客や運営効率化のアイデアが浮かびます。",
   "時代の流れを掴んでおくことが大切。AI活用は今後ますます重要になりそうです。"]

/-- `FALLBACK_COMMENTS["minpaku"]` (lines 70-78). -/
def fallbackCommentsMinpaku : List String :=
  ["規制動向は常にウォッチしておきましょう。早めの対応が安定運営のカギです。",
   "市場の変化に敏感に。柔軟な戦略で乗り越えていきましょう！",
   "民泊ビジネスは変化が激しい業界。情報収集を怠らないことが成功の秘訣です。",
   "他のオーナーさんの動向も参考に。良い事例は積極的に取り入れましょう。",
   "インバウンド需要の回復に備えて、今から準備を進めておくのがおすすめです。",
   "地域のルールをしっかり確認。法令遵守で長く続けられるビジネスを。",
   "ゲストの安全・安心を第一に。信頼されるホストを目指しましょう。"]

/-- `FALLBACK_COMMENTS["rental"]` (lines 79-87). -/
def fallbackCommentsRental : List String :=
  ["新しいスペース活用のヒントになりそう。トレンドを押さえておきましょう。",
   "レンタルスペース市場は成長中。差別化のアイデアを常に考えていきたいですね。",
   "プラットフォームの動向は要チェック。新機能は積極的に活用しましょう。",
   "ニッチなジャンルにもチャンスあり。ユニークなスペースで勝負するのもアリ。",
   "リピーター獲得が安定収益のカギ。サービス品質を高めていきましょう。",
   "競合との差別化ポイントを明確に。自分のスペースの強みを活かしましょう。",
   "新しい利用シーンの開拓が成長のヒント。柔軟な発想で可能性を広げましょう。"]

/-- `FALLBACK_COMMENTS.get(category, FALLBACK_COMMENTS["ai"])` (line 248). -/
def fallbackCommentsFor (category : String) : List String :=
  if category = "ai" then fallbackCommentsAi
  else if category = "minpaku" then fallbackCommentsMinpaku
  else if category = "rental" then fallbackCommentsRental
  else fallbackCommentsAi

/-- `get_fallback_comment` (lines 246-249): `random.choice` is modelled by
an arbitrary choice index `i` reduced modulo the list length. -/
def get_fallback_comment (category : String) (i : Nat) : String :=
  let comments := fallbackCommentsFor category
  comments.getD (i % comments.length) ""

/-- The outcome of the outbound HTTP request in `call_gemini_api`:
an exception, or a status code paired with the extracted
`result["candidates"][0]["content"]["parts"][0]["text"]` (which is `none`
when `response.json()` or the key chain raises inside the `try`). -/
inductive ApiOutcome where
  | exn : ApiOutcome
  | http : Nat → Option String → ApiOutcome
deriving DecidableEq

/-- `call_gemini_api` (lines 296-328): `none` when the key is empty, the
request raised, the status is not 200, or the response body could not be
taken apart. -/
def call_gemini_api (apiKey : String) (o : ApiOutcome) : Option String :=
  if apiKey = "" then none
  else
    match o with
    | .exn => none
    | .http status text => if status = 200 then text else none

/-- `re.search(r'\{[\s\S]*\}', result)` (line 357): greedy match from the
first brace with a brace somewhere after it, up to the last closing brace. -/
def extractJsonBlock (s : String) : Option String :=
  let cs := s.data
  let i := (cs.takeWhile (fun c => !(c == '{'))).length
  let j := cs.length - 1 - (cs.reverse.takeWhile (fun c => !(c == '}'))).length
  if i < cs.length ∧ j < cs.length ∧ i < j then some ⟨(cs.drop i).take (j - i + 1)⟩
  else none

/-- The three JSON fields the script consumes from a parsed summary object
(read via `.get(..., "")` in `process_news_category`, lines 500-502). -/
structure SummaryData where
  summary : String
  detail : String
  aoComment : String
deriving DecidableEq

/-- `generate_ai_summary` (lines 331-370).  `result` is the return of
`call_gemini_api(prompt)`; `jsonLoads` models `json.loads` restricted to
the three consumed fields (`none` = `JSONDecodeError`); `i` is the
`random.choice` index for the fallback comment. -/
def generate_ai_summary (entry : Entry) (article_content : String)
    (result : Option String) (jsonLoads : String → Option SummaryData)
    (i : Nat) : SummaryData :=
  let parsed :=
    match result with
    | some r => if r = "" then none else (extractJsonBlock r).bind jsonLoads
    | none => none
  match parsed with
  | some d => d
  | none =>
    { summary := if entry.summary = "" then "「" ++ entry.title ++ "」について報じられています。"
                 else strTake entry.summary 200
      detail := if article_content = "" then "" else strTake article_content 300
      aoComment := get_fallback_comment "ai" i }

/-- `generate_minpaku_summary` (lines 373-410). -/
def generate_minpaku_summary (entry : Entry) (article_content : String)
    (result : Option String) (jsonLoads : String → Option SummaryData)
    (i : Nat) : SummaryData :=
  let parsed :=
    match result with
    | some r => if r = "" then none else (extractJsonBlock r).bind jsonLoads
    | none => none
  match parsed with
  | some d => d
  | none =>
    { summary := if entry.summary = "" then "「" ++ entry.title ++ "」について報じられています。"
                 else strTake entry.summary 200
      detail := if article_content = "" then "" else strTake article_content 300
      aoComment := get_fallback_comment "minpaku" i }

/-- `generate_rental_summary` (lines 413-450). -/
def generate_rental_summary (entry : Entry) (article_content : String)
    (result : Option String) (jsonLoads : String → Option SummaryData)
    (i : Nat) : SummaryData :=
  let parsed :=
    match result with
    | some r => if r = "" then none else (extractJsonBlock r).bind jsonLoads
    | none => none
  match parsed with
  | some d => d
  | none =>
    { summary := if entry.summary = "" then "「" ++ entry.title ++ "」について報じられています。"
                 else strTake entry.summary 200
      detail := if article_content = "" then "" else strTake article_content 300
      aoComment := get_fallback_comment "rental" i }

/-! ## `process_news_category` (lines 453-510) -/

/-- A value stored in the article dictionary. -/
inductive FieldVal where
  | str : String → FieldVal
  | strList : List String → FieldVal
deriving DecidableEq

/-- The external effects of one article's processing, passed in as oracles:
`fetch` models `fetch_article_content` (network), `api` the Gemini call made
for the entry's prompt, `jsonLoads` the JSON decoding of the extracted block,
`cidx` the `random.choice` index. -/
structure ProcessOracles where
  fetch : String → String
  api : Entry → String → Option String
  jsonLoads : String → Option SummaryData
  cidx : Nat

/-- The article dictionary built for one deduplicated entry
(lines 478-508), in the dict's insertion order; `tools` is appended only
when the detected tool list is nonempty (lines 505-506). -/
def buildArticle (category : String) (O : ProcessOracles) (e : Entry) :
    List (String × FieldVal) :=
  let article_content := O.fetch e.link
  let summary_data :=
    if category = "ai" then
      generate_ai_summary e article_content (O.api e article_content) O.jsonLoads O.cidx
    else if category = "minpaku" then
      generate_minpaku_summary e article_content (O.api e article_content) O.jsonLoads O.cidx
    else
      generate_rental_summary e article_content (O.api e article_content) O.jsonLoads O.cidx
  let tools :=
    if category = "ai" then
      detect_ai_tools (e.title ++ " " ++ e.summary ++ " " ++ article_content)
    else if category = "minpaku" then []
    else []
  [("title", .str e.title), ("url", .str e.link), ("source", .str e.sourceName),
   ("publishedDate", .str e.publishedDate), ("summary", .str summary_data.summary),
   ("detail", .str summary_data.detail), ("aoComment", .str summary_data.aoComment)] ++
    (if tools = [] then [] else [("tools", .strList tools)])

/-- `process_news_category` from the collected entry list onward
(lines 465-510): deduplicate, keep the first `max_articles`, and build an
article per entry.  The per-feed collection loop (lines 458-463) is a
network collaborator, so the concatenated `all_entries` list is the input. -/
def process_news_category (category : String) (all_entries : List Entry)
    (max_articles : Nat) (O : ProcessOracles) : List (List (String × FieldVal)) :=
  ((dedupeEntries all_entries).take max_articles).map (buildArticle category O)

/-! ## Persistence in `main` and the archive index (lines 513-578) -/

/-- The filesystem fragment the script writes: JSON files by path. -/
def FileSys : Type := String → Option String

/-- `DATA_DIR / "news.json"` (line 565). -/
def newsPath : String := "data/news.json"

/-- `ARCHIVE_DIR / f"{target_date}.json"` (line 571). -/
def archivePath (d : String) : String := "data/archive/" ++ d ++ ".json"

/-- `ARCHIVE_DIR / "index.json"` (line 515). -/
def indexPath : String := "data/archive/index.json"

/-- One file write. -/
def fsWrite (fs : FileSys) (p v : String) : FileSys :=
  fun q => if q = p then some v else fs q

/-- The persistence steps of `main` (lines 564-578), in program order:
overwrite the latest file, overwrite the target date's archive file, then
read-modify-write the index.  `enc`/`dec` model the JSON (de)serialization
of the index list; a missing index file decodes to `[]` (lines 517-521). -/
def mainPersist (enc : List String → String) (dec : String → List String)
    (fs : FileSys) (target_date envelope : String) : FileSys :=
  let fs1 := fsWrite fs newsPath envelope
  let fs2 := fsWrite fs1 (archivePath target_date) envelope
  let oldIndex := match fs2 indexPath with
                  | none => []
                  | some s => dec s
  fsWrite fs2 indexPath (enc (update_archive_index target_date oldIndex))

/-! ## Claim C3: the archive index invariant -/

/-- C3 (as stated) is false: `update_archive_index` writes the pre-existing
index back unchanged whenever the date is already present, so a pre-existing
duplicate survives the call. -/
theorem c3_counterexample :
    update_archive_index "2024-01-01" ["2024-01-01", "2024-01-01"] =
      ["2024-01-01", "2024-01-01"] ∧
    ¬ (["2024-01-01", "2024-01-01"] : List String).Nodup := by
  constructor
  · decide
  · decide

/-- C3 (amended): `update_archive_index` preserves the index invariant —
if the pre-existing decoded index is sorted newest-first (strictly
descending date strings), has at most 100 entries, and every entry is at
most the new date, then after the call the index still has at most 100
entries, no duplicates, and newest-first order. -/
theorem c3_index_invariant (d : String) (idx : List String)
    (hs : idx.Sorted (fun a b => b < a)) (hlen : idx.length ≤ 100)
    (hle : ∀ x ∈ idx, x ≤ d) :
    (update_archive_index d idx).length ≤ 100 ∧
    (update_archive_index d idx).Nodup ∧
    (update_archive_index d idx).Sorted (fun a b => b < a) := by
  by_cases hd : d ∈ idx
  · simp only [update_archive_index, hd, if_true]
    exact ⟨hlen, hs.imp (fun h => ne_of_gt h), hs⟩
  · simp only [update_archive_index, hd, if_false]
    have hcons : (d :: idx).Sorted (fun a b => b < a) := by
      rw [List.sorted_cons]
      refine ⟨fun x hx => ?_, hs⟩
      exact lt_of_le_of_ne (hle x hx) (fun hxd => hd (hxd ▸ hx))
    have hsorted : ((d :: idx).take 100).Sorted (fun a b => b < a) :=
      hcons.sublist (List.take_sublist _ _)
    refine ⟨?_, hsorted.imp (fun h => ne_of_gt h), hsorted⟩
    simp [List.length_take]

/-- Witness for C3 (amended) at a concrete well-formed index. -/
theorem c3_witness :
    (update_archive_index "c" ["b", "a"]).length ≤ 100 ∧
    (update_archive_index "c" ["b", "a"]).Nodup ∧
    (update_archive_index "c" ["b", "a"]).Sorted (fun a b => b < a) :=
  c3_index_invariant "c" ["b", "a"]
    (by
      simp only [List.sorted_cons, List.mem_cons, List.mem_singleton, List.sorted_nil,
        String.lt_iff_toList_lt]
      refine ⟨?_, ?_, trivial⟩ <;> intros <;> simp_all <;> decide)
    (by decide)
    (by
      intro x hx
      rw [String.le_iff_toList_le]
      fin_cases hx <;> decide)

/-! ## Claim C4: JST date filtering -/

/-- C4: `is_published_on_date` returns `true` exactly when the parsed
timestamp's JST calendar date equals the target string, and `false` when the
timestamp cannot be parsed; an aware timestamp is converted (same instant,
wall clock shifted by `540 - offset` minutes), and a naive one keeps its
wall clock (is treated as already being in JST). -/
theorem c4_is_published_on_date :
    (∀ p1 p2 s t, parse_published_datetime p1 p2 s = none →
        is_published_on_date p1 p2 s t = false) ∧
    (∀ p1 p2 s t, is_published_on_date p1 p2 s t = true ↔
        ∃ dt, parse_published_datetime p1 p2 s = some dt ∧ jstDateString dt = t) ∧
    (∀ w o, jstDateString ⟨w, some o⟩ = dateStringOfMinutes (w - o + 540)) ∧
    (∀ w1 w2 o1 o2, w1 - o1 = w2 - o2 →
        jstDateString ⟨w1, some o1⟩ = jstDateString ⟨w2, some o2⟩) ∧
    (∀ w, jstDateString ⟨w, none⟩ = dateStringOfMinutes w) := by
  refine ⟨?_, ?_, ?_, ?_, ?_⟩
  · intro p1 p2 s t h
    simp [is_published_on_date, h]
  · intro p1 p2 s t
    cases hp : parse_published_datetime p1 p2 s with
    | none => simp [is_published_on_date, hp]
    | some dt => simp [is_published_on_date, hp]
  · intro w o
    rfl
  · intro w1 w2 o1 o2 h
    have h540 : w1 - o1 + 540 = w2 - o2 + 540 := by omega
    simp [jstDateString, jstWallMinutes, h540]
  · intro w
    rfl

/-- Witness for C4 at an unparsable timestamp. -/
theorem c4_witness :
    is_published_on_date (fun _ => none) (fun _ => none) "x" "2024-01-01" = false :=
  c4_is_published_on_date.1 _ _ _ _ (by decide)

/-! ## Claim C8: best-effort utilities -/

/-- C8 (as stated) is false: on an unparsable timestamp
`parse_published_date` substitutes the raw string's first 16 characters
rather than the empty string, and `detect_ai_tools` substitutes `["Other"]`
rather than an empty list. -/
theorem c8_counterexample :
    parse_published_date (fun _ => none) (fun _ => none) "0123456789abcdefgh" =
      "0123456789abcdef" ∧
    ("0123456789abcdef" : String) ≠ "" ∧
    detect_ai_tools "hello world" = ["Other"] ∧
    (["Other"] : List String) ≠ [] := by
  refine ⟨by decide, by decide, by decide, by decide⟩

/-- C8 (amended): the utilities are best-effort and never raise, but their
failure fallbacks are: `parse_published_date` returns the raw input
truncated to 16 characters (empty only for empty input),
`clean_html_text` maps the empty string to the empty string, and
`detect_ai_tools` returns `["Other"]` when no keyword matches. -/
theorem c8_best_effort :
    (∀ p1 p2 s, p1 s = none → p2 (s.replace "Z" "+00:00") = none → s ≠ "" →
        parse_published_date p1 p2 s = strTake s 16) ∧
    (∀ p1 p2, parse_published_date p1 p2 "" = "") ∧
    (∀ u, clean_html_text u "" = "") ∧
    (∀ t, detectedTools t = [] → detect_ai_tools t = ["Other"]) := by
  refine ⟨?_, ?_, ?_, ?_⟩
  · intro p1 p2 s h1 h2 hs
    simp only [parse_published_date, hs, if_false, h1, h2]
    split
    · rfl
    · rename_i hgt
      have hle : s.data.length ≤ 16 := Nat.le_of_not_lt hgt
      cases s with
      | mk d =>
        simp only [strTake]
        rw [List.take_of_length_le hle]
  · intro p1 p2
    rfl
  · intro u
    rfl
  · intro t h
    simp [detect_ai_tools, h]

/-- Witness for C8 (amended) at a concrete failing input. -/
theorem c8_witness :
    parse_published_date (fun _ => none) (fun _ => none) "abc" = strTake "abc" 16 :=
  c8_best_effort.1 _ _ _ rfl rfl (by decide)

/-! ## Claims C9/C10: the fetch loop -/

/-- The collection loop appends the kept entries in order and stops as soon
as `max_entries` have been appended: it equals a filter of the examined
slice followed by a truncation. -/
theorem fetchGo_eq_filter_take (unesc : String → String)
    (p1 p2 : String → Option PyDatetime) (target : Option String) (m : Nat)
    (l : List RawEntry) :
    ∀ cnt, cnt < m →
      fetchGo unesc p1 p2 target m l cnt =
        ((l.filter fun e => !skipsEntry p1 p2 target e).take (m - cnt)).map
          (mkEntry unesc p1 p2) := by
  induction l with
  | nil => intro cnt _; simp [fetchGo]
  | cons e r ih =>
    intro cnt hcnt
    by_cases hsk : skipsEntry p1 p2 target e
    · simp only [fetchGo, hsk, if_true, List.filter_cons, Bool.not_true]
      rw [ih cnt hcnt]
      simp [hsk]
    · have hsk' : skipsEntry p1 p2 target e = false := by simp [hsk]
      have hpos : 0 < m - cnt := by omega
      simp only [fetchGo, hsk', List.filter_cons, Bool.not_false, if_true]
      rw [List.take_cons hpos, List.map_cons]
      simp only [Bool.false_eq_true, if_false]
      by_cases hbr : cnt + 1 ≥ m
      · have h1 : m - cnt - 1 = 0 := by omega
        simp [hbr, h1]
      · have h2 : m - cnt - 1 = m - (cnt + 1) := by omega
        simp only [hbr, if_false]
        rw [ih (cnt + 1) (by omega), h2]

/-- `fetch_rss_entries` as a filter of the first `3*max_entries` feed
entries followed by truncation to `max_entries`. -/
theorem fetch_rss_entries_eq (unesc : String → String)
    (p1 p2 : String → Option PyDatetime) (feed : List RawEntry) (m : Nat)
    (target : Option String) :
    fetch_rss_entries unesc p1 p2 feed m target =
      (((feed.take (m * 3)).filter fun e => !skipsEntry p1 p2 target e).take m).map
        (mkEntry unesc p1 p2) := by
  cases m with
  | zero => simp [fetch_rss_entries, fetchGo]
  | succ k =>
    unfold fetch_rss_entries
    rw [fetchGo_eq_filter_take unesc p1 p2 target (k + 1) _ 0 (Nat.succ_pos k)]
    simp

/-- C9 (as stated) is false: with `max_entries = 1` and two entries whose
`published` fields are both empty, the second one is dropped by the cap
even though its publication date is unknown and it bypasses the filter. -/
theorem c9_counterexample :
    (fetch_rss_entries id (fun _ => none) (fun _ => none)
        [⟨"t1", "a", "", "", ""⟩, ⟨"t2", "b", "", "", ""⟩] 1
        (some "2024-01-01")).map (fun e => e.link) = ["a"] ∧
    (⟨"t2", "b", "", "", ""⟩ : RawEntry).published = "" ∧
    "b" ∉ (fetch_rss_entries id (fun _ => none) (fun _ => none)
        [⟨"t1", "a", "", "", ""⟩, ⟨"t2", "b", "", "", ""⟩] 1
        (some "2024-01-01")).map (fun e => e.link) := by
  refine ⟨by decide, by decide, by decide⟩

/-- C9 (amended): an entry whose `published` field is empty is never
excluded by the date filter — the result is the date filter applied to the
first `3*max_entries` feed entries (empty-published entries always pass it)
followed only by the cap at `max_entries`. -/
theorem c9_empty_published_passes :
    (∀ unesc p1 p2 feed m target,
        fetch_rss_entries unesc p1 p2 feed m target =
          (((feed.take (m * 3)).filter fun e => !skipsEntry p1 p2 target e).take m).map
            (mkEntry unesc p1 p2)) ∧
    (∀ p1 p2 target e, e.published = "" → skipsEntry p1 p2 target e = false) := by
  refine ⟨fetch_rss_entries_eq, ?_⟩
  intro p1 p2 target e he
  cases target with
  | none => rfl
  | some td =>
    by_cases htd : td = ""
    · simp [skipsEntry, htd]
    · simp [skipsEntry, htd, he]

/-- Witness for C9 (amended) at a concrete empty-published entry. -/
theorem c9_witness :
    skipsEntry (fun _ => none) (fun _ => none) (some "2024-01-01")
      ⟨"t", "l", "", "", ""⟩ = false :=
  c9_empty_published_passes.2 _ _ _ _ rfl

/-- C10: `fetch_rss_entries` returns at most `max_entries` entries and its
result depends only on the first `3*max_entries` feed entries;
`process_news_category` returns at most `max_articles` articles, so at most
5 per category as invoked by `main`. -/
theorem c10_bounds :
    (∀ unesc p1 p2 feed m target,
        (fetch_rss_entries unesc p1 p2 feed m target).length ≤ m) ∧
    (∀ unesc p1 p2 feed m target,
        fetch_rss_entries unesc p1 p2 feed m target =
          fetch_rss_entries unesc p1 p2 (feed.take (m * 3)) m target) ∧
    (∀ category entries maxA O,
        (process_news_category category entries maxA O).length ≤ maxA) ∧
    (∀ category entries O,
        (process_news_category category entries 5 O).length ≤ 5) := by
  refine ⟨?_, ?_, ?_, ?_⟩
  · intro unesc p1 p2 feed m target
    rw [fetch_rss_entries_eq]
    simp only [List.length_map, List.length_take]
    omega
  · intro unesc p1 p2 feed m target
    unfold fetch_rss_entries
    rw [List.take_take, Nat.min_self]
  · intro category entries maxA O
    simp only [process_news_category, List.length_map, List.length_take]
    omega
  · intro category entries O
    simp only [process_news_category, List.length_map, List.length_take]
    omega

/-! ## Claim C2: deduplication -/

theorem dedupGo_sublist (l : List Entry) : ∀ seen, (dedupGo seen l).Sublist l := by
  induction l with
  | nil => intro seen; simp [dedupGo]
  | cons e r ih =>
    intro seen
    by_cases h : titleKey e ∈ seen
    · simp only [dedupGo, h, if_true]
      exact (ih seen).trans (List.sublist_cons_self _ _)
    · simp only [dedupGo, h, if_false]
      exact (ih _).cons₂ e

theorem mem_dedupGo_not_seen (l : List Entry) :
    ∀ seen e, e ∈ dedupGo seen l → titleKey e ∉ seen := by
  induction l with
  | nil => intro seen e he; simp [dedupGo] at he
  | cons a r ih =>
    intro seen e he
    by_cases h : titleKey a ∈ seen
    · simp only [dedupGo, h, if_true] at he
      exact ih seen e he
    · simp only [dedupGo, h, if_false] at he
      rcases List.mem_cons.mp he with rfl | he
      · exact h
      · have := ih _ e he
        intro hc
        exact this (List.mem_cons_of_mem _ hc)

theorem dedupGo_pairwise (l : List Entry) :
    ∀ seen, (dedupGo seen l).Pairwise (fun a b => titleKey a ≠ titleKey b) := by
  induction l with
  | nil => intro seen; simp [dedupGo]
  | cons e r ih =>
    intro seen
    by_cases h : titleKey e ∈ seen
    · simp only [dedupGo, h, if_true]
      exact ih seen
    · simp only [dedupGo, h, if_false]
      refine List.Pairwise.cons ?_ (ih _)
      intro b hb
      have := mem_dedupGo_not_seen r _ b hb
      intro hc
      exact this (by simp [hc])

theorem dedupGo_of_pairwise (l : List Entry) :
    ∀ seen, (∀ e ∈ l, titleKey e ∉ seen) →
      l.Pairwise (fun a b => titleKey a ≠ titleKey b) → dedupGo seen l = l := by
  induction l with
  | nil => intro seen _ _; rfl
  | cons e r ih =>
    intro seen hseen hpw
    have he : titleKey e ∉ seen := hseen e (List.mem_cons_self _ _)
    simp only [dedupGo, he, if_false]
    rw [List.pairwise_cons] at hpw
    refine congrArg (e :: ·) (ih _ ?_ hpw.2)
    intro x hx
    simp only [List.mem_cons, not_or]
    exact ⟨fun hc => hpw.1 x hx hc.symm, hseen x (List.mem_cons_of_mem _ hx)⟩

theorem dedupGo_cons_filter :
    ∀ (n : Nat) (l : List Entry), l.length ≤ n → ∀ (seen : List (List Char)) k,
      dedupGo (k :: seen) l =
        dedupGo seen (l.filter fun e => !(titleKey e == k)) := by
  intro n
  induction n with
  | zero =>
    intro l hl seen k
    have : l = [] := List.eq_nil_of_length_eq_zero (Nat.le_zero.mp hl)
    subst this
    rfl
  | succ n ih =>
    intro l hl seen k
    cases l with
    | nil => rfl
    | cons e r =>
      have hr : r.length ≤ n := by
        simp only [List.length_cons] at hl
        omega
      by_cases hk : titleKey e = k
      · have hmem : titleKey e ∈ k :: seen := by simp [hk]
        have hfe : (!(titleKey e == k)) = false := by simp [hk]
        simp only [dedupGo, hmem, if_true, List.filter_cons, hfe, Bool.false_eq_true,
          if_false]
        exact ih r hr seen k
      · have hfe : (!(titleKey e == k)) = true := by simp [hk]
        by_cases hs : titleKey e ∈ seen
        · have hmem : titleKey e ∈ k :: seen := by simp [hs]
          simp only [dedupGo, hmem, if_true, List.filter_cons, hfe, if_true, hs]
          exact ih r hr seen k
        · have hmem : titleKey e ∉ k :: seen := by simp [hk, hs]
          simp only [dedupGo, hmem, if_false, List.filter_cons, hfe, if_true, hs]
          refine congrArg (e :: ·) ?_
          have h1 := ih r hr (k :: seen) (titleKey e)
          have h2 := ih (r.filter fun x => !(titleKey x == titleKey e))
            ((List.filter_sublist _).length_le.trans hr) seen k
          have h3 := ih (r.filter fun x => !(titleKey x == k))
            ((List.filter_sublist _).length_le.trans hr) seen (titleKey e)
          rw [h1, h2, h3, List.filter_comm]

/-- C2: deduplication in `process_news_category` keeps exactly the first
entry for each key (the title lower-cased and truncated to 50 characters):
the result is a subsequence of the input (original order), no two retained
entries share a key, a list with pairwise-distinct keys is retained in
full, and the head of the list is always kept while the later entries with
its key are dropped (the recursion equation). -/
theorem c2_dedup :
    (∀ l, (dedupeEntries l).Sublist l) ∧
    (∀ l, (dedupeEntries l).Pairwise (fun a b => titleKey a ≠ titleKey b)) ∧
    (∀ l, l.Pairwise (fun a b => titleKey a ≠ titleKey b) → dedupeEntries l = l) ∧
    (∀ e l, dedupeEntries (e :: l) =
      e :: dedupeEntries (l.filter fun x => !(titleKey x == titleKey e))) := by
  refine ⟨fun l => dedupGo_sublist l [], fun l => dedupGo_pairwise l [], ?_, ?_⟩
  · intro l hpw
    exact dedupGo_of_pairwise l [] (by simp) hpw
  · intro e l
    show dedupGo [] (e :: l) = _
    simp only [dedupGo, List.not_mem_nil, if_false]
    exact congrArg (e :: ·) (dedupGo_cons_filter l.length l le_rfl [] (titleKey e))

/-- Witness for C2 on a concrete list with pairwise-distinct keys. -/
theorem c2_witness :
    dedupeEntries [⟨"A", "", "", "", "", ""⟩, ⟨"B", "", "", "", "", ""⟩] =
      [⟨"A", "", "", "", "", ""⟩, ⟨"B", "", "", "", "", ""⟩] :=
  c2_dedup.2.2.1 _ (by decide)

/-! ## Claim C1: the summary-generation fallback -/

theorem fallbackCommentsFor_ne_nil (category : String) :
    0 < (fallbackCommentsFor category).length := by
  unfold fallbackCommentsFor
  split
  · decide
  · split
    · decide
    · split
      · decide
      · decide

theorem get_fallback_comment_mem (category : String) (i : Nat) :
    get_fallback_comment category i ∈ fallbackCommentsFor category := by
  unfold get_fallback_comment
  have hlt : i % (fallbackCommentsFor category).length <
      (fallbackCommentsFor category).length :=
    Nat.mod_lt _ (fallbackCommentsFor_ne_nil category)
  rw [List.getD_eq_getElem _ _ hlt]
  exact List.getElem_mem _

/-- C1: whenever the Gemini key is absent, the HTTP call fails (exception or
non-200 status), or the returned text contains no parsable JSON object, the
three summary generators return the fallback value — the entry summary
truncated to 200 characters (or the canned title sentence when it is empty),
the first 300 characters of the scraped content (or the empty string), and a
persona comment drawn from the per-category fallback comment list. -/
theorem c1_fallback :
    (∀ apiKey o, apiKey = "" → call_gemini_api apiKey o = none) ∧
    (∀ apiKey, call_gemini_api apiKey .exn = none) ∧
    (∀ apiKey st tx, st ≠ 200 → call_gemini_api apiKey (.http st tx) = none) ∧
    (∀ e c res jl i,
        (res = none ∨ ∃ r, res = some r ∧ (r = "" ∨ (extractJsonBlock r).bind jl = none)) →
        generate_ai_summary e c res jl i =
          ⟨if e.summary = "" then "「" ++ e.title ++ "」について報じられています。"
            else strTake e.summary 200,
           if c = "" then "" else strTake c 300,
           get_fallback_comment "ai" i⟩ ∧
        get_fallback_comment "ai" i ∈ fallbackCommentsAi) ∧
    (∀ e c res jl i,
        (res = none ∨ ∃ r, res = some r ∧ (r = "" ∨ (extractJsonBlock r).bind jl = none)) →
        generate_minpaku_summary e c res jl i =
          ⟨if e.summary = "" then "「" ++ e.title ++ "」について報じられています。"
            else strTake e.summary 200,
           if c = "" then "" else strTake c 300,
           get_fallback_comment "minpaku" i⟩ ∧
        get_fallback_comment "minpaku" i ∈ fallbackCommentsMinpaku) ∧
    (∀ e c res jl i,
        (res = none ∨ ∃ r, res = some r ∧ (r = "" ∨ (extractJsonBlock r).bind jl = none)) →
        generate_rental_summary e c res jl i =
          ⟨if e.summary = "" then "「" ++ e.title ++ "」について報じられています。"
            else strTake e.summary 200,
           if c = "" then "" else strTake c 300,
           get_fallback_comment "rental" i⟩ ∧
        get_fallback_comment "rental" i ∈ fallbackCommentsRental) := by
  have hparsed : ∀ (res : Option String) (jl : String → Option SummaryData),
      (res = none ∨ ∃ r, res = some r ∧ (r = "" ∨ (extractJsonBlock r).bind jl = none)) →
      (match res with
       | some r => if r = "" then none else (extractJsonBlock r).bind jl
       | none => none) = (none : Option SummaryData) := by
    intro res jl h
    rcases h with rfl | ⟨r, rfl, hr⟩
    · rfl
    · rcases hr with rfl | hr
      · simp
      · by_cases he : r = ""
        · simp [he]
        · simp [he, hr]
  refine ⟨?_, ?_, ?_, ?_, ?_, ?_⟩
  · intro apiKey o h
    simp [call_gemini_api, h]
  · intro apiKey
    by_cases h : apiKey = "" <;> simp [call_gemini_api, h]
  · intro apiKey st tx h
    by_cases hk : apiKey = "" <;> simp [call_gemini_api, hk, h]
  · intro e c res jl i h
    refine ⟨?_, get_fallback_comment_mem "ai" i⟩
    unfold generate_ai_summary
    rw [hparsed res jl h]
  · intro e c res jl i h
    refine ⟨?_, get_fallback_comment_mem "minpaku" i⟩
    unfold generate_minpaku_summary
    rw [hparsed res jl h]
  · intro e c res jl i h
    refine ⟨?_, get_fallback_comment_mem "rental" i⟩
    unfold generate_rental_summary
    rw [hparsed res jl h]

/-- Witness for C1 at a concrete entry with an absent API result. -/
theorem c1_witness :
    generate_ai_summary ⟨"T", "L", "", "", "S", "F"⟩ "CC" none (fun _ => none) 0 =
      ⟨if ("S" : String) = "" then "「" ++ "T" ++ "」について報じられています。"
        else strTake "S" 200,
       if ("CC" : String) = "" then "" else strTake "CC" 300,
       get_fallback_comment "ai" 0⟩ ∧
    get_fallback_comment "ai" 0 ∈ fallbackCommentsAi :=
  c1_fallback.2.2.2.1 ⟨"T", "L", "", "", "S", "F"⟩ "CC" none (fun _ => none) 0 (Or.inl rfl)

/-! ## Claim C6: the article record shape -/

theorem detect_ai_tools_ne_nil (t : String) : detect_ai_tools t ≠ [] := by
  unfold detect_ai_tools
  split
  · simp
  · assumption

/-- C6 (as stated) is false: a produced news item does not carry the raw
published timestamp — its keys are exactly the seven listed, with
`publishedDate` (the localized form) the only timestamp field, and the raw
`published` value of the entry appears in no field. -/
theorem c6_counterexample :
    (process_news_category "minpaku"
        [⟨"T", "u", "RAW_TIMESTAMP_VALUE", "LOCAL", "S", "F"⟩] 5
        ⟨fun _ => "", fun _ _ => none, fun _ => none, 0⟩).map
        (fun a => a.map Prod.fst) =
      [["title", "url", "source", "publishedDate", "summary", "detail", "aoComment"]] ∧
    "published" ∉ (["title", "url", "source", "publishedDate", "summary", "detail",
        "aoComment"] : List String) ∧
    FieldVal.str "RAW_TIMESTAMP_VALUE" ∉
      ((process_news_category "minpaku"
          [⟨"T", "u", "RAW_TIMESTAMP_VALUE", "LOCAL", "S", "F"⟩] 5
          ⟨fun _ => "", fun _ _ => none, fun _ => none, 0⟩).join.map Prod.snd) := by
  refine ⟨by decide, by decide, by decide⟩

/-- C6 (amended): every item produced by `process_news_category` carries
title, canonical URL, source feed name, the localized published timestamp
(the raw timestamp is not part of the record), summary, detail, and persona
comment; items of the `"ai"` category additionally carry a nonempty tool-tag
list, and items of the other categories have no tool field. -/
theorem c6_article_shape :
    (∀ category O e, (buildArticle category O e).map Prod.fst =
        ["title", "url", "source", "publishedDate", "summary", "detail", "aoComment"] ++
          (if category = "ai" then ["tools"] else [])) ∧
    (∀ category entries maxA O a, a ∈ process_news_category category entries maxA O →
        a.map Prod.fst =
          ["title", "url", "source", "publishedDate", "summary", "detail", "aoComment"] ++
            (if category = "ai" then ["tools"] else [])) ∧
    (∀ O e, ∃ ts, ts ≠ [] ∧ ("tools", FieldVal.strList ts) ∈ buildArticle "ai" O e) ∧
    (∀ category O e v, category ≠ "ai" → ("tools", v) ∉ buildArticle category O e) := by
  have hkeys : ∀ category O e, (buildArticle category O e).map Prod.fst =
      ["title", "url", "source", "publishedDate", "summary", "detail", "aoComment"] ++
        (if category = "ai" then ["tools"] else []) := by
    intro category O e
    by_cases hc : category = "ai"
    · have hne := detect_ai_tools_ne_nil
        (e.title ++ " " ++ e.summary ++ " " ++ O.fetch e.link)
      simp [buildArticle, hc, hne]
    · by_cases hm : category = "minpaku" <;> simp [buildArticle, hc, hm]
  refine ⟨hkeys, ?_, ?_, ?_⟩
  · intro category entries maxA O a ha
    simp only [process_news_category, List.mem_map] at ha
    obtain ⟨e, _, rfl⟩ := ha
    exact hkeys category O e
  · intro O e
    refine ⟨detect_ai_tools (e.title ++ " " ++ e.summary ++ " " ++ O.fetch e.link),
      detect_ai_tools_ne_nil _, ?_⟩
    have hne := detect_ai_tools_ne_nil (e.title ++ " " ++ e.summary ++ " " ++ O.fetch e.link)
    simp [buildArticle, hne]
  · intro category O e v hc
    by_cases hm : category = "minpaku" <;> simp [buildArticle, hc, hm]

/-- Witness for C6 (amended) at a concrete non-AI article. -/
theorem c6_witness :
    ∀ v, ("tools", v) ∉ buildArticle "rental"
      ⟨fun _ => "", fun _ _ => none, fun _ => none, 0⟩ ⟨"T", "u", "", "", "S", "F"⟩ :=
  fun v => c6_article_shape.2.2.2 "rental" _ _ v (by decide)

/-! ## Claim C7: persistence frame -/

theorem archivePath_inj {d1 d2 : String} (h : archivePath d1 = archivePath d2) :
    d1 = d2 := by
  unfold archivePath at h
  have hd : ("data/archive/".data ++ d1.data) ++ ".json".data =
      ("data/archive/".data ++ d2.data) ++ ".json".data := by
    have := congrArg String.data h
    simpa [String.data_append] using this
  rw [List.append_assoc, List.append_assoc] at hd
  have h2 := List.append_cancel_left hd
  have h3 := List.append_cancel_right h2
  cases d1
  cases d2
  exact congrArg String.mk h3

theorem archivePath_ne_newsPath (d : String) : archivePath d ≠ newsPath := by
  intro h
  have hlen := congrArg String.length h
  simp only [archivePath, newsPath, String.length_append] at hlen
  have h13 : "data/archive/".length = 13 := by decide
  have h5 : ".json".length = 5 := by decide
  have h14 : "data/news.json".length = 14 := by decide
  omega

theorem archivePath_ne_indexPath {d : String} (h : d ≠ "index") :
    archivePath d ≠ indexPath := by
  intro hc
  have : archivePath d = archivePath "index" := by
    rw [hc]
    rfl
  exact h (archivePath_inj this)

/-- C7 (as stated) is false: a later run with the same target date rewrites
that date's archive file, so an already-written archive slot is not
immutable across runs. -/
theorem c7_counterexample :
    mainPersist (fun _ => "") (fun _ => [])
      (mainPersist (fun _ => "") (fun _ => []) (fun _ => none) "2024-01-01" "ENV1")
      "2024-01-01" "ENV2" (archivePath "2024-01-01") = some "ENV2" ∧
    mainPersist (fun _ => "") (fun _ => []) (fun _ => none) "2024-01-01" "ENV1"
      (archivePath "2024-01-01") = some "ENV1" ∧
    ("ENV1" : String) ≠ "ENV2" := by
  refine ⟨by decide, by decide, by decide⟩

/-- C7 (amended): each run overwrites the "latest" file and its own target
date's archive slot with the new envelope, and leaves the archive file of
every other date untouched (the index file, stored alongside the archives,
is the only other file written); an existing archive file is altered only
by a run whose target is that same date. -/
theorem c7_persistence_frame :
    (∀ enc dec fs t env, mainPersist enc dec fs t env newsPath = some env) ∧
    (∀ enc dec fs t env, t ≠ "index" →
        mainPersist enc dec fs t env (archivePath t) = some env) ∧
    (∀ enc dec fs t env d, d ≠ t → d ≠ "index" →
        mainPersist enc dec fs t env (archivePath d) = fs (archivePath d)) := by
  refine ⟨?_, ?_, ?_⟩
  · intro enc dec fs t env
    have h1 : newsPath ≠ indexPath := by decide
    have h2 : newsPath ≠ archivePath t := fun hc => archivePath_ne_newsPath t hc.symm
    simp [mainPersist, fsWrite, h1, h2]
  · intro enc dec fs t env ht
    have h1 : archivePath t ≠ indexPath := archivePath_ne_indexPath ht
    simp [mainPersist, fsWrite, h1]
  · intro enc dec fs t env d hdt hdi
    have h1 : archivePath d ≠ indexPath := archivePath_ne_indexPath hdi
    have h2 : archivePath d ≠ archivePath t := fun hc => hdt (archivePath_inj hc)
    have h3 : archivePath d ≠ newsPath := archivePath_ne_newsPath d
    simp [mainPersist, fsWrite, h1, h2, h3]

/-- Witness for C7 (amended): a run's frame at another date's archive file. -/
theorem c7_witness :
    mainPersist (fun _ => "") (fun _ => []) (fun _ => none) "2024-01-02" "E"
      (archivePath "2024-01-01") = (fun _ => none : FileSys) (archivePath "2024-01-01") :=
  c7_persistence_frame.2.2 _ _ _ _ _ _ (by decide) (by decide)

/-! ## Claim C5: `clean_html_text` output shape -/

theorem startsTagB_cons_gt (r' : List Char) : startsTagB ('>' :: r') = false := by
  simp [startsTagB, List.takeWhile_cons]

theorem startsTagB_no_gt {r : List Char} (h : '>' ∉ r) : startsTagB r = false := by
  have hd : r.dropWhile (fun c => !(c == '>')) = [] := by
    rw [List.dropWhile_eq_nil_iff]
    intro x hx
    simp only [Bool.not_eq_true']
    exact beq_false_of_ne (fun hc => h (hc ▸ hx))
  simp [startsTagB, hd]

theorem startsTagB_of_false {r : List Char} (h : startsTagB r = false) :
    r = [] ∨ (∃ r', r = '>' :: r') ∨ '>' ∉ r := by
  cases r with
  | nil => exact Or.inl rfl
  | cons c r' =>
    by_cases hc : c = '>'
    · exact Or.inr (Or.inl ⟨r', by rw [hc]⟩)
    · right; right
      simp only [startsTagB, Bool.and_eq_false_iff, Bool.not_eq_false'] at h
      rcases h with h | h
      · exfalso
        rw [List.takeWhile_cons] at h
        simp [beq_false_of_ne hc] at h
      · have h' : (c :: r').dropWhile (fun c => !(c == '>')) = [] := by
          simpa using h
        have := List.dropWhile_eq_nil_iff.mp h'
        intro hm
        have hgt := this '>' hm
        simp at hgt

theorem startsTagB_of_mem_gt {mid post : List Char} (hmid : mid ≠ [])
    (hhead : ∀ c r', mid = c :: r' → c ≠ '>') :
    startsTagB (mid ++ '>' :: post) = true := by
  cases mid with
  | nil => exact absurd rfl hmid
  | cons c r' =>
    have hc : c ≠ '>' := hhead c r' rfl
    have h1 : ((c :: (r' ++ '>' :: post)).takeWhile (fun x => !(x == '>'))).isEmpty
        = false := by
      rw [List.takeWhile_cons]
      simp [beq_false_of_ne hc]
    have h2 : ((c :: (r' ++ '>' :: post)).dropWhile (fun x => !(x == '>'))) ≠ [] := by
      intro hnil
      have := List.dropWhile_eq_nil_iff.mp hnil '>' (by simp)
      simp at this
    simp [startsTagB, List.cons_append, h1, h2, List.isEmpty_iff]

theorem noTagB_cons {c : Char} {r : List Char} (h : noTagB (c :: r) = true) :
    noTagB r = true ∧ (c = '<' → startsTagB r = false) := by
  simp only [noTagB, Bool.and_eq_true, Bool.or_eq_true, Bool.not_eq_true'] at h
  refine ⟨h.2, fun hc => ?_⟩
  rcases h.1 with h1 | h1
  · subst hc; simp at h1
  · exact h1

theorem noTagB_mk {c : Char} {r : List Char} (h1 : noTagB r = true)
    (h2 : c = '<' → startsTagB r = false) : noTagB (c :: r) = true := by
  simp only [noTagB, Bool.and_eq_true, Bool.or_eq_true, Bool.not_eq_true']
  refine ⟨?_, h1⟩
  by_cases hc : c = '<'
  · exact Or.inr (h2 hc)
  · exact Or.inl (by simpa using beq_false_of_ne hc)

theorem noTagB_suffix : ∀ {l s : List Char}, noTagB l = true → s <:+ l →
    noTagB s = true := by
  intro l s h hs
  obtain ⟨t, rfl⟩ := hs
  induction t with
  | nil => simpa using h
  | cons a t' ih => exact ih (noTagB_cons h).1

theorem mem_removeTags {a : Char} : ∀ {l : List Char}, a ∈ removeTags l →
    a ∈ l ∨ a = ' ' := by
  intro l
  induction l using removeTags.induct with
  | case1 => intro h; simp [removeTags] at h
  | case2 c r h1 h2 ih =>
    intro h
    rw [removeTags, if_pos h1, if_pos h2] at h
    rcases List.mem_cons.mp h with rfl | h
    · exact Or.inr rfl
    · rcases ih h with h | h
      · exact Or.inl (List.mem_cons_of_mem _
          ((List.dropWhile_sublist _).subset ((List.tail_sublist _).subset h)))
      · exact Or.inr h
  | case3 c r h1 h2 ih =>
    intro h
    rw [removeTags, if_pos h1, if_neg (by simp [h2])] at h
    rcases List.mem_cons.mp h with rfl | h
    · exact Or.inl (List.mem_cons_self _ _)
    · rcases ih h with h | h
      · exact Or.inl (List.mem_cons_of_mem _ h)
      · exact Or.inr h
  | case4 c r h1 ih =>
    intro h
    rw [removeTags, if_neg (by simp_all)] at h
    rcases List.mem_cons.mp h with rfl | h
    · exact Or.inl (List.mem_cons_self _ _)
    · rcases ih h with h | h
      · exact Or.inl (List.mem_cons_of_mem _ h)
      · exact Or.inr h

theorem removeTags_nil : removeTags [] = [] := by rw [removeTags]

theorem removeUrls_nil : removeUrls [] = [] := by rw [removeUrls]

theorem collapseWs_nil : collapseWs [] = [] := by rw [collapseWs]

theorem removeTags_cons_of_ne {c : Char} {r : List Char} (h : c ≠ '<') :
    removeTags (c :: r) = c :: removeTags r := by
  rw [removeTags, if_neg (by simp [beq_false_of_ne h])]

/-- Every tag match is removed: the output of the tag substitution contains
no substring matching `<[^>]+>`. -/
theorem noTagB_removeTags (l : List Char) : noTagB (removeTags l) = true := by
  induction l using removeTags.induct with
  | case1 => rw [removeTags_nil]; rfl
  | case2 c r h1 h2 ih =>
    rw [removeTags, if_pos h1, if_pos h2]
    exact noTagB_mk ih (by intro h; cases h)
  | case3 c r h1 h2 ih =>
    rw [removeTags, if_pos h1, if_neg h2]
    refine noTagB_mk ih (fun _ => ?_)
    rcases startsTagB_of_false (eq_false_of_ne_true h2) with hr | ⟨r', hr⟩ | hno
    · subst hr
      rw [removeTags_nil]
      rfl
    · subst hr
      rw [removeTags_cons_of_ne (by decide)]
      exact startsTagB_cons_gt _
    · refine startsTagB_no_gt (fun hm => ?_)
      rcases mem_removeTags hm with hm | hm
      · exact hno hm
      · cases hm
  | case4 c r h1 ih =>
    rw [removeTags, if_neg h1]
    refine noTagB_mk ih (fun hc => ?_)
    exact absurd (by simp [hc] : (c == '<') = true) h1

theorem matchUrl_suffix {l rest : List Char} (h : matchUrl l = some rest) :
    rest <:+ l := by
  unfold matchUrl at h
  split at h
  · refine List.IsSuffix.trans ?_ ⟨['h', 't', 't', 'p', 's', ':', '/', '/'], rfl⟩
    unfold urlTail at h
    split at h
    · cases h
    · exact Option.some.inj h ▸ List.dropWhile_suffix _
  · refine List.IsSuffix.trans ?_ ⟨['h', 't', 't', 'p', ':', '/', '/'], rfl⟩
    unfold urlTail at h
    split at h
    · cases h
    · exact Option.some.inj h ▸ List.dropWhile_suffix _
  · cases h

theorem removeUrls_cons_eq {c : Char} {r rest : List Char}
    (h : matchUrl (c :: r) = some rest) :
    removeUrls (c :: r) = removeUrls rest := by
  rw [removeUrls]
  split
  · rename_i rest' h'
    rw [h] at h'
    rw [Option.some.inj h']
  · rename_i h'
    rw [h] at h'
    cases h'

theorem removeUrls_cons_none {c : Char} {r : List Char}
    (h : matchUrl (c :: r) = none) :
    removeUrls (c :: r) = c :: removeUrls r := by
  rw [removeUrls]
  split
  · rename_i rest' h'
    rw [h] at h'
    cases h'
  · rfl

theorem removeUrls_sublist (l : List Char) : (removeUrls l).Sublist l := by
  induction l using removeUrls.induct with
  | case1 => rw [removeUrls_nil]
  | case2 c r rest h ih =>
    rw [removeUrls_cons_eq h]
    exact ih.trans (matchUrl_sublist h)
  | case3 c r h ih =>
    rw [removeUrls_cons_none h]
    exact ih.cons₂ c

theorem removeUrls_cons_gt (r' : List Char) :
    removeUrls ('>' :: r') = '>' :: removeUrls r' :=
  removeUrls_cons_none rfl

/-- URL removal cannot create a tag match. -/
theorem noTagB_removeUrls : ∀ {l : List Char}, noTagB l = true →
    noTagB (removeUrls l) = true := by
  intro l
  induction l using removeUrls.induct with
  | case1 =>
    intro h
    rw [removeUrls_nil]
    exact h
  | case2 c r rest hm ih =>
    intro h
    rw [removeUrls_cons_eq hm]
    exact ih (noTagB_suffix h (matchUrl_suffix hm))
  | case3 c r hm ih =>
    intro h
    rw [removeUrls_cons_none hm]
    obtain ⟨hr, hlt⟩ := noTagB_cons h
    refine noTagB_mk (ih hr) (fun hc => ?_)
    rcases startsTagB_of_false (hlt hc) with hr' | ⟨r', hr'⟩ | hno
    · subst hr'
      rw [removeUrls_nil]
      rfl
    · subst hr'
      rw [removeUrls_cons_gt]
      exact startsTagB_cons_gt _
    · refine startsTagB_no_gt (fun hmem => ?_)
      exact hno ((removeUrls_sublist r).subset hmem)

theorem mem_collapseWs {a : Char} : ∀ {l : List Char}, a ∈ collapseWs l →
    a ∈ l ∨ a = ' ' := by
  intro l
  induction l using collapseWs.induct with
  | case1 => intro h; rw [collapseWs_nil] at h; cases h
  | case2 c r h1 ih =>
    intro h
    rw [collapseWs, if_pos h1] at h
    rcases List.mem_cons.mp h with rfl | h
    · exact Or.inr rfl
    · rcases ih h with h | h
      · exact Or.inl (List.mem_cons_of_mem _ ((List.dropWhile_sublist _).subset h))
      · exact Or.inr h
  | case3 c r h1 ih =>
    intro h
    rw [collapseWs, if_neg (by simp_all)] at h
    rcases List.mem_cons.mp h with rfl | h
    · exact Or.inl (List.mem_cons_self _ _)
    · rcases ih h with h | h
      · exact Or.inl (List.mem_cons_of_mem _ h)
      · exact Or.inr h

theorem collapseWs_cons_not_ws {c : Char} {r : List Char} (h : isWsChar c = false) :
    collapseWs (c :: r) = c :: collapseWs r := by
  rw [collapseWs, if_neg (by simp [h])]

/-- Whitespace collapsing cannot create a tag match. -/
theorem noTagB_collapseWs : ∀ {l : List Char}, noTagB l = true →
    noTagB (collapseWs l) = true := by
  intro l
  induction l using collapseWs.induct with
  | case1 =>
    intro h
    rw [collapseWs_nil]
    exact h
  | case2 c r h1 ih =>
    intro h
    rw [collapseWs, if_pos h1]
    have hr : noTagB (r.dropWhile isWsChar) = true :=
      noTagB_suffix (noTagB_cons h).1 (List.dropWhile_suffix _)
    exact noTagB_mk (ih hr) (by intro h'; cases h')
  | case3 c r h1 ih =>
    intro h
    rw [collapseWs, if_neg h1]
    obtain ⟨hr, hlt⟩ := noTagB_cons h
    refine noTagB_mk (ih hr) (fun hc => ?_)
    rcases startsTagB_of_false (hlt hc) with hr' | ⟨r', hr'⟩ | hno
    · subst hr'
      rw [collapseWs_nil]
      rfl
    · subst hr'
      rw [collapseWs_cons_not_ws (by decide)]
      exact startsTagB_cons_gt _
    · refine startsTagB_no_gt (fun hmem => ?_)
      rcases mem_collapseWs hmem with hm | hm
      · exact hno hm
      · cases hm

theorem noTagB_take : ∀ (l : List Char) (n : Nat), noTagB l = true →
    noTagB (l.take n) = true := by
  intro l
  induction l with
  | nil => intro n _; simp [noTagB]
  | cons c r ih =>
    intro n h
    cases n with
    | zero => rfl
    | succ k =>
      rw [List.take_cons_succ]
      obtain ⟨hr, hlt⟩ := noTagB_cons h
      refine noTagB_mk (ih k hr) (fun hc => ?_)
      rcases startsTagB_of_false (hlt hc) with hr' | ⟨r', hr'⟩ | hno
      · subst hr'
        rw [List.take_nil]
        rfl
      · subst hr'
        cases k with
        | zero => rfl
        | succ k' =>
          rw [List.take_cons_succ]
          exact startsTagB_cons_gt _
      · exact startsTagB_no_gt (fun hm => hno ((List.take_sublist _ _).subset hm))

theorem noWsRunB_cons_of {a : Char} {l : List Char} (h1 : noWsRunB l = true)
    (h2 : ∀ b r', l = b :: r' → (isWsChar a && isWsChar b) = false) :
    noWsRunB (a :: l) = true := by
  cases l with
  | nil => rfl
  | cons b r' =>
    show (!(isWsChar a && isWsChar b) && noWsRunB (b :: r')) = true
    rw [h2 b r' rfl, h1]
    rfl

theorem noWsRunB_of_cons {a : Char} {l : List Char} (h : noWsRunB (a :: l) = true) :
    noWsRunB l = true := by
  cases l with
  | nil => rfl
  | cons b r' =>
    have : (!(isWsChar a && isWsChar b) && noWsRunB (b :: r')) = true := h
    simp only [Bool.and_eq_true] at this
    exact this.2

theorem noWsRunB_pair {a b : Char} {r : List Char}
    (h : noWsRunB (a :: b :: r) = true) : (isWsChar a && isWsChar b) = false := by
  have : (!(isWsChar a && isWsChar b) && noWsRunB (b :: r)) = true := h
  simp only [Bool.and_eq_true, Bool.not_eq_true'] at this
  exact this.1

theorem noWsRunB_suffix : ∀ {l s : List Char}, noWsRunB l = true → s <:+ l →
    noWsRunB s = true := by
  intro l s h hs
  obtain ⟨t, rfl⟩ := hs
  induction t with
  | nil => simpa using h
  | cons a t' ih => exact ih (noWsRunB_of_cons h)

theorem collapseWs_head_not_ws {m : List Char}
    (hm : ∀ d r', m = d :: r' → isWsChar d = false) :
    ∀ c rest, collapseWs m = c :: rest → isWsChar c = false := by
  intro c rest h
  cases m with
  | nil => rw [collapseWs_nil] at h; cases h
  | cons d m' =>
    have hd : isWsChar d = false := hm d m' rfl
    rw [collapseWs_cons_not_ws hd] at h
    cases h
    exact hd

theorem head_dropWhile_not_ws {l : List Char} :
    ∀ d r', l.dropWhile isWsChar = d :: r' → isWsChar d = false := by
  intro d r' h
  have := List.head?_dropWhile_not isWsChar l
  rw [h] at this
  simpa using this

/-- After collapsing, no two adjacent characters are both whitespace. -/
theorem noWsRunB_collapseWs (l : List Char) : noWsRunB (collapseWs l) = true := by
  induction l using collapseWs.induct with
  | case1 => rw [collapseWs_nil]; rfl
  | case2 c r h1 ih =>
    rw [collapseWs, if_pos h1]
    refine noWsRunB_cons_of ih (fun b r' hb => ?_)
    have hbws : isWsChar b = false :=
      collapseWs_head_not_ws (fun d r'' hd => head_dropWhile_not_ws d r'' hd) b r' hb
    rw [hbws]
    exact Bool.and_false _
  | case3 c r h1 ih =>
    rw [collapseWs, if_neg h1]
    refine noWsRunB_cons_of ih (fun b r' _ => ?_)
    have hc : isWsChar c = false := by
      cases hcw : isWsChar c
      · rfl
      · exact absurd hcw h1
    rw [hc]
    exact Bool.false_and _

theorem noWsRunB_take : ∀ (l : List Char) (n : Nat), noWsRunB l = true →
    noWsRunB (l.take n) = true := by
  intro l
  induction l with
  | nil => intro n _; rw [List.take_nil]; rfl
  | cons a r ih =>
    intro n h
    cases n with
    | zero => rfl
    | succ k =>
      rw [List.take_cons_succ]
      refine noWsRunB_cons_of (ih k (noWsRunB_of_cons h)) (fun b r' hb => ?_)
      cases r with
      | nil => rw [List.take_nil] at hb; cases hb
      | cons b0 r2 =>
        cases k with
        | zero => cases hb
        | succ k' =>
          rw [List.take_cons_succ] at hb
          cases hb
          exact noWsRunB_pair h

/-- `.strip()` is a prefix of the left-stripped list. -/
theorem stripWs_eq_take (l : List Char) :
    ∃ n, stripWs l = (l.dropWhile isWsChar).take n := by
  unfold stripWs
  have hsuf : ((l.dropWhile isWsChar).reverse.dropWhile isWsChar) <:+
      (l.dropWhile isWsChar).reverse := List.dropWhile_suffix _
  have hpre : ((l.dropWhile isWsChar).reverse.dropWhile isWsChar).reverse <+:
      l.dropWhile isWsChar := by
    rw [← List.reverse_suffix, List.reverse_reverse]
    exact hsuf
  exact ⟨_, List.prefix_iff_eq_take.mp hpre⟩

theorem stripWs_head_not_ws {l : List Char} :
    ∀ c rest, stripWs l = c :: rest → isWsChar c = false := by
  intro c rest h
  obtain ⟨n, hst⟩ := stripWs_eq_take l
  rw [hst] at h
  cases hdw : l.dropWhile isWsChar with
  | nil => rw [hdw, List.take_nil] at h; cases h
  | cons d l1' =>
    cases n with
    | zero => rw [hdw] at h; cases h
    | succ k =>
      rw [hdw, List.take_cons_succ] at h
      cases h
      exact head_dropWhile_not_ws _ _ hdw

theorem stripWs_last_not_ws {l : List Char} :
    ∀ c, (stripWs l).getLast? = some c → isWsChar c = false := by
  intro c h
  unfold stripWs at h
  rw [List.getLast?_reverse] at h
  cases hdw : ((l.dropWhile isWsChar).reverse.dropWhile isWsChar) with
  | nil => rw [hdw] at h; cases h
  | cons d r' =>
    rw [hdw] at h
    simp only [List.head?_cons, Option.some.injEq] at h
    subst h
    exact head_dropWhile_not_ws _ _ hdw

theorem noTagB_append_not_tag : ∀ (pre mid post : List Char), mid ≠ [] →
    '>' ∉ mid → noTagB (pre ++ '<' :: (mid ++ '>' :: post)) = true → False := by
  intro pre
  induction pre with
  | nil =>
    intro mid post hmid hgt h
    rw [List.nil_append] at h
    have h2 := (noTagB_cons h).2 rfl
    have h3 := @startsTagB_of_mem_gt mid post hmid
      (fun c r' hm hc => hgt (by rw [hm, hc]; exact List.mem_cons_self _ _))
    rw [h3] at h2
    cases h2
  | cons a pre' ih =>
    intro mid post hmid hgt h
    rw [List.cons_append] at h
    exact ih mid post hmid hgt (noTagB_cons h).1

theorem not_hasTagP_of_noTagB {l : List Char} (h : noTagB l = true) :
    ¬ hasTagP l := by
  rintro ⟨pre, mid, post, rfl, hmid, hgt⟩
  exact noTagB_append_not_tag pre mid post hmid hgt h

theorem hasTagP_of_hasScriptElemP {l : List Char} (h : hasScriptElemP l) :
    hasTagP l := by
  obtain ⟨pre, opn, attrs, body, cls, post, heq, hopn, _, hattrs⟩ := h
  refine ⟨pre, opn ++ attrs, body ++ '<' :: '/' :: (cls ++ '>' :: post), ?_, ?_, ?_⟩
  · rw [heq]
  · intro hnil
    have := congrArg List.length hopn
    rw [(List.append_eq_nil.mp hnil).1] at this
    simp at this
  · intro hmem
    rcases List.mem_append.mp hmem with hm | hm
    · have hmap : Char.toLower '>' ∈ opn.map Char.toLower := List.mem_map_of_mem _ hm
      rw [hopn] at hmap
      have : Char.toLower '>' = '>' := by decide
      rw [this] at hmap
      simp at hmap
    · exact hattrs hm

theorem hasTagP_of_hasStyleElemP {l : List Char} (h : hasStyleElemP l) :
    hasTagP l := by
  obtain ⟨pre, opn, attrs, body, cls, post, heq, hopn, _, hattrs⟩ := h
  refine ⟨pre, opn ++ attrs, body ++ '<' :: '/' :: (cls ++ '>' :: post), ?_, ?_, ?_⟩
  · rw [heq]
  · intro hnil
    have := congrArg List.length hopn
    rw [(List.append_eq_nil.mp hnil).1] at this
    simp at this
  · intro hmem
    rcases List.mem_append.mp hmem with hm | hm
    · have hmap : Char.toLower '>' ∈ opn.map Char.toLower := List.mem_map_of_mem _ hm
      rw [hopn] at hmap
      have : Char.toLower '>' = '>' := by decide
      rw [this] at hmap
      simp at hmap
    · exact hattrs hm

/-- C5: `clean_html_text` returns a string with no substring matching the
tag pattern `<[^>]+>` (hence no complete script or style element, whose
opening tag is such a match, and none of their content framed by them), no
two adjacent whitespace characters (all runs collapsed), no leading or
trailing whitespace (stripped), and it maps the empty string to the empty
string. -/
theorem c5_clean_html_text :
    (∀ u, clean_html_text u "" = "") ∧
    (∀ u s, noTagB (clean_html_text u s).data = true) ∧
    (∀ u s, ¬ hasTagP (clean_html_text u s).data) ∧
    (∀ u s, ¬ hasScriptElemP (clean_html_text u s).data) ∧
    (∀ u s, ¬ hasStyleElemP (clean_html_text u s).data) ∧
    (∀ u s, noWsRunB (clean_html_text u s).data = true) ∧
    (∀ u s c rest, (clean_html_text u s).data = c :: rest → isWsChar c = false) ∧
    (∀ u s c, (clean_html_text u s).data.getLast? = some c → isWsChar c = false) := by
  have hdata : ∀ u s, s ≠ "" → (clean_html_text u s).data =
      stripWs (collapseWs (removeUrls (removeTags
        (removeStyleGo (removeScriptGo (u s).data))))) := by
    intro u s hs
    rw [clean_html_text, if_neg hs]
  have hnotag : ∀ u s, noTagB (clean_html_text u s).data = true := by
    intro u s
    by_cases hs : s = ""
    · subst hs
      rfl
    · rw [hdata u s hs]
      have h1 := noTagB_removeTags (removeStyleGo (removeScriptGo (u s).data))
      have h2 := noTagB_removeUrls h1
      have h3 := noTagB_collapseWs h2
      obtain ⟨n, hst⟩ := stripWs_eq_take (collapseWs (removeUrls (removeTags
        (removeStyleGo (removeScriptGo (u s).data)))))
      rw [hst]
      exact noTagB_take _ n (noTagB_suffix h3 (List.dropWhile_suffix _))
  refine ⟨fun u => rfl, hnotag, ?_, ?_, ?_, ?_, ?_, ?_⟩
  · intro u s
    exact not_hasTagP_of_noTagB (hnotag u s)
  · intro u s hsc
    exact not_hasTagP_of_noTagB (hnotag u s) (hasTagP_of_hasScriptElemP hsc)
  · intro u s hsc
    exact not_hasTagP_of_noTagB (hnotag u s) (hasTagP_of_hasStyleElemP hsc)
  · intro u s
    by_cases hs : s = ""
    · subst hs
      rfl
    · rw [hdata u s hs]
      have h3 := noWsRunB_collapseWs (removeUrls (removeTags
        (removeStyleGo (removeScriptGo (u s).data))))
      obtain ⟨n, hst⟩ := stripWs_eq_take (collapseWs (removeUrls (removeTags
        (removeStyleGo (removeScriptGo (u s).data)))))
      rw [hst]
      exact noWsRunB_take _ n (noWsRunB_suffix h3 (List.dropWhile_suffix _))
  · intro u s c rest h
    by_cases hs : s = ""
    · subst hs
      cases h
    · rw [hdata u s hs] at h
      exact stripWs_head_not_ws c rest h
  · intro u s c h
    by_cases hs : s = ""
    · subst hs
      cases h
    · rw [hdata u s hs] at h
      exact stripWs_last_not_ws c h

/-- Witness for C5: the empty-string case. -/
theorem c5_witness : clean_html_text id "" = "" :=
  c5_clean_html_text.1 id

